import Mathlib

/-!
Verification of the quadtree spatial index (`src/main.rs`).

The Rust code is shallowly embedded: `Rect` with `i32` fields becomes a
structure over `Int` (Rust's `/` on `i32` truncates toward zero, embedded as
`Int.tdiv`), `QuadTree` with four independently-optional boxed children becomes
a nested inductive with four `Option QuadTree` fields, and the in-place
mutating `insert` becomes a state-passing function.  Since `insert` recurses
into freshly created children, its recursion is not structural and indeed does
not terminate for `capacity = 0`; it is therefore embedded with explicit fuel,
`none` standing for a call that did not finish within the given recursion
depth.  `query` and the other tree traversals are structurally recursive.
-/

structure Rect where
  x : Int
  y : Int
  w : Int
  h : Int
deriving DecidableEq, Repr

/-- `Rect::contains` from the source: inclusive bounds on both axes,
looking only at the point's `(x, y)` origin. -/
def Rect.contains (self point : Rect) : Bool :=
  decide (point.x ≥ self.x) && decide (point.x ≤ self.x + self.w) &&
  decide (point.y ≥ self.y) && decide (point.y ≤ self.y + self.h)

/-- `Rect::intersects` from the source: strict separating-axis test. -/
def Rect.intersects (self range : Rect) : Bool :=
  decide (self.x < range.x + range.w) &&
  decide (self.x + self.w > range.x) &&
  decide (self.y < range.y + range.h) &&
  decide (self.y + self.h > range.y)

/-- The `QuadTree` struct from the source: a boundary, a capacity, the
directly stored entries (`points`), and four independently optional
children, mirroring the four `Option<Box<QuadTree>>` fields. -/
inductive QuadTree : Type where
  | mk : Rect → Nat → List Rect → Option QuadTree → Option QuadTree →
      Option QuadTree → Option QuadTree → QuadTree
deriving Repr

def QuadTree.boundary : QuadTree → Rect
  | .mk b _ _ _ _ _ _ => b

def QuadTree.capacity : QuadTree → Nat
  | .mk _ c _ _ _ _ _ => c

def QuadTree.points : QuadTree → List Rect
  | .mk _ _ ps _ _ _ _ => ps

def QuadTree.north_west : QuadTree → Option QuadTree
  | .mk _ _ _ nw _ _ _ => nw

def QuadTree.north_east : QuadTree → Option QuadTree
  | .mk _ _ _ _ ne _ _ => ne

def QuadTree.south_west : QuadTree → Option QuadTree
  | .mk _ _ _ _ _ sw _ => sw

def QuadTree.south_east : QuadTree → Option QuadTree
  | .mk _ _ _ _ _ _ se => se

def QuadTree.setPoints : QuadTree → List Rect → QuadTree
  | .mk b c _ nw ne sw se, ps => .mk b c ps nw ne sw se

def QuadTree.setNW : QuadTree → Option QuadTree → QuadTree
  | .mk b c ps _ ne sw se, o => .mk b c ps o ne sw se

def QuadTree.setNE : QuadTree → Option QuadTree → QuadTree
  | .mk b c ps nw _ sw se, o => .mk b c ps nw o sw se

def QuadTree.setSW : QuadTree → Option QuadTree → QuadTree
  | .mk b c ps nw ne _ se, o => .mk b c ps nw ne o se

def QuadTree.setSE : QuadTree → Option QuadTree → QuadTree
  | .mk b c ps nw ne sw _, o => .mk b c ps nw ne sw o

/-- `QuadTree::new`: a fresh leaf with empty entry list and no children. -/
def QuadTree.new (boundary : Rect) (capacity : Nat) : QuadTree :=
  .mk boundary capacity [] none none none none

/-- `QuadTree::subdivide`: replaces all four children with fresh leaves over
the four quadrants obtained by truncating halving of width and height
(`Int.tdiv` is Rust's `/` on `i32`), each inheriting the parent's capacity. -/
def QuadTree.subdivide (t : QuadTree) : QuadTree :=
  match t with
  | .mk b c ps _ _ _ _ =>
    .mk b c ps
      (some (QuadTree.new (Rect.mk b.x b.y (Int.tdiv b.w 2) (Int.tdiv b.h 2)) c))
      (some (QuadTree.new (Rect.mk (b.x + Int.tdiv b.w 2) b.y (Int.tdiv b.w 2) (Int.tdiv b.h 2)) c))
      (some (QuadTree.new (Rect.mk b.x (b.y + Int.tdiv b.h 2) (Int.tdiv b.w 2) (Int.tdiv b.h 2)) c))
      (some (QuadTree.new (Rect.mk (b.x + Int.tdiv b.w 2) (b.y + Int.tdiv b.h 2) (Int.tdiv b.w 2) (Int.tdiv b.h 2)) c))

/-- One child slot of the sequential child-dispatch loop in
`QuadTree::insert`: absent child contributes a failed attempt without
consuming fuel; a present child is updated in place (the update is kept even
when the child rejects the entry, exactly as the Rust `&mut` call does). -/
def QuadTree.tryChild (ins : QuadTree → Rect → Option (QuadTree × Bool))
    (point : Rect) (child : Option QuadTree) : Option (Option QuadTree × Bool) :=
  match child with
  | none => some (none, false)
  | some tr =>
    match ins tr point with
    | none => none
    | some (tr2, r) => some (some tr2, r)

/-- The four sequential child-dispatch blocks at the end of
`QuadTree::insert`: the NW, NE, SW, SE children are tried in that order,
each `&mut` recursive call keeping its update of the child even when the
child rejects the entry, with an early `return true` at the first child
that accepts. -/
def QuadTree.insertChildren (ins : QuadTree → Rect → Option (QuadTree × Bool))
    (point : Rect) (t1 : QuadTree) : Option (QuadTree × Bool) :=
  match QuadTree.tryChild ins point t1.north_west with
  | none => none
  | some (nw2, rnw) =>
    let t2 := t1.setNW nw2
    if rnw then some (t2, true)
    else
      match QuadTree.tryChild ins point t2.north_east with
      | none => none
      | some (ne2, rne) =>
        let t3 := t2.setNE ne2
        if rne then some (t3, true)
        else
          match QuadTree.tryChild ins point t3.south_west with
          | none => none
          | some (sw2, rsw) =>
            let t4 := t3.setSW sw2
            if rsw then some (t4, true)
            else
              match QuadTree.tryChild ins point t4.south_east with
              | none => none
              | some (se2, rse) => some (t4.setSE se2, rse)

/-- `QuadTree::insert`, with explicit fuel bounding the recursion depth
(`none` = the Rust call would still be recursing at that depth).  Mirrors the
source line by line: boundary check, direct store when a leaf has room,
subdivision of a childless node, then the child dispatch of
`QuadTree.insertChildren`. -/
def QuadTree.insertFuel : Nat → QuadTree → Rect → Option (QuadTree × Bool)
  | 0, _, _ => none
  | Nat.succ fuel, t, point =>
    if !(t.boundary.contains point) then
      some (t, false)
    else if decide (t.points.length < t.capacity) && t.north_west.isNone then
      some (t.setPoints (t.points ++ [point]), true)
    else
      let t1 := if t.north_west.isNone then t.subdivide else t
      QuadTree.insertChildren (QuadTree.insertFuel fuel) point t1

/-- `QuadTree::query`: prune when the node boundary does not intersect the
region, otherwise the directly stored entries contained in the region (in
insertion order) followed by the NW, NE, SW, SE child results in that order.
When `north_west` is absent the source returns the direct matches at once
(the split on `north_west` is hoisted to the top-level match here, so the
boundary test appears once per branch; behaviour is identical since the
source performs it before looking at `north_west`). -/
def QuadTree.query : QuadTree → Rect → Option (List Rect)
  | .mk b _ ps none _ _ _, range =>
    if !(b.intersects range) then none
    else some (ps.filter (fun p => range.contains p))
  | .mk b _ ps (some tnw) ne sw se, range =>
    if !(b.intersects range) then none
    else
      let pts := ps.filter (fun p => range.contains p)
      let l1 := (QuadTree.query tnw range).getD []
      let l2 := match ne with
        | some tr => (QuadTree.query tr range).getD []
        | none => []
      let l3 := match sw with
        | some tr => (QuadTree.query tr range).getD []
        | none => []
      let l4 := match se with
        | some tr => (QuadTree.query tr range).getD []
        | none => []
      some (pts ++ l1 ++ l2 ++ l3 ++ l4)

/-- All entries stored anywhere in the subtree, in the NW, NE, SW, SE
traversal order used by `query`. -/
def QuadTree.stored : QuadTree → List Rect
  | .mk _ _ ps nw ne sw se =>
    ps
    ++ (match nw with | some tr => QuadTree.stored tr | none => [])
    ++ (match ne with | some tr => QuadTree.stored tr | none => [])
    ++ (match sw with | some tr => QuadTree.stored tr | none => [])
    ++ (match se with | some tr => QuadTree.stored tr | none => [])

/-- Total number of stored entries in the subtree. -/
def QuadTree.size (t : QuadTree) : Nat :=
  t.stored.length

/-- The all-or-nothing child invariant from the spec, checked recursively:
at every node either all four children are present or all four are absent. -/
def QuadTree.allOrNothing : QuadTree → Bool
  | .mk _ _ _ nw ne sw se =>
    (nw.isSome == ne.isSome && nw.isSome == sw.isSome && nw.isSome == se.isSome)
    && (match nw with | some tr => QuadTree.allOrNothing tr | none => true)
    && (match ne with | some tr => QuadTree.allOrNothing tr | none => true)
    && (match sw with | some tr => QuadTree.allOrNothing tr | none => true)
    && (match se with | some tr => QuadTree.allOrNothing tr | none => true)

/-- A node is a leaf when all four children are absent. -/
def QuadTree.isLeaf (t : QuadTree) : Bool :=
  t.north_west.isNone && t.north_east.isNone &&
  t.south_west.isNone && t.south_east.isNone

/-- Shape extension: every child present in the first tree is present in the
second, recursively.  `treeLe t t2` is what "a node never reverts from
internal back to leaf" means for a whole tree transformation. -/
def QuadTree.treeLe : QuadTree → QuadTree → Bool
  | .mk _ _ _ nw ne sw se, .mk _ _ _ nw2 ne2 sw2 se2 =>
    (match nw, nw2 with
     | none, _ => true
     | some a, some b => QuadTree.treeLe a b
     | some _, none => false)
    && (match ne, ne2 with
     | none, _ => true
     | some a, some b => QuadTree.treeLe a b
     | some _, none => false)
    && (match sw, sw2 with
     | none, _ => true
     | some a, some b => QuadTree.treeLe a b
     | some _, none => false)
    && (match se, se2 with
     | none, _ => true
     | some a, some b => QuadTree.treeLe a b
     | some _, none => false)

/-- Sequential insertion of a list of entries, each call given the same fuel;
the boolean records whether every single insert returned `true`. -/
def QuadTree.insertAll : Nat → QuadTree → List Rect → Option (QuadTree × Bool)
  | _, t, [] => some (t, true)
  | fuel, t, e :: es =>
    match QuadTree.insertFuel fuel t e with
    | none => none
    | some (t2, r) =>
      match QuadTree.insertAll fuel t2 es with
      | none => none
      | some (t3, rs) => some (t3, r && rs)

/-- Tree states reachable from `QuadTree::new` by terminating `insert` calls
(`query` takes `&self` and cannot mutate the tree, so it is not a state
transition). -/
inductive QuadTree.Reachable : QuadTree → Prop where
  | base (b : Rect) (c : Nat) : QuadTree.Reachable (QuadTree.new b c)
  | step (t : QuadTree) (p : Rect) (fuel : Nat) (t2 : QuadTree) (r : Bool) :
      QuadTree.Reachable t → QuadTree.insertFuel fuel t p = some (t2, r) →
      QuadTree.Reachable t2

/-- Structural induction principle for the nested inductive `QuadTree`. -/
def QuadTree.recTree {motive : QuadTree → Prop}
    (h : ∀ b c ps nw ne sw se,
      (∀ t, nw = some t → motive t) →
      (∀ t, ne = some t → motive t) →
      (∀ t, sw = some t → motive t) →
      (∀ t, se = some t → motive t) →
      motive (QuadTree.mk b c ps nw ne sw se)) :
    ∀ t, motive t
  | QuadTree.mk b c ps nw ne sw se =>
    h b c ps nw ne sw se
      (fun t _ => QuadTree.recTree h t)
      (fun t _ => QuadTree.recTree h t)
      (fun t _ => QuadTree.recTree h t)
      (fun t _ => QuadTree.recTree h t)
termination_by t => sizeOf t
decreasing_by
  all_goals rename_i ht
  all_goals subst ht
  all_goals simp
  all_goals omega

@[simp] theorem QuadTree.boundary_mk (b c ps nw ne sw se) :
    (QuadTree.mk b c ps nw ne sw se).boundary = b := rfl

@[simp] theorem QuadTree.capacity_mk (b c ps nw ne sw se) :
    (QuadTree.mk b c ps nw ne sw se).capacity = c := rfl

@[simp] theorem QuadTree.points_mk (b c ps nw ne sw se) :
    (QuadTree.mk b c ps nw ne sw se).points = ps := rfl

@[simp] theorem QuadTree.north_west_mk (b c ps nw ne sw se) :
    (QuadTree.mk b c ps nw ne sw se).north_west = nw := rfl

@[simp] theorem QuadTree.north_east_mk (b c ps nw ne sw se) :
    (QuadTree.mk b c ps nw ne sw se).north_east = ne := rfl

@[simp] theorem QuadTree.south_west_mk (b c ps nw ne sw se) :
    (QuadTree.mk b c ps nw ne sw se).south_west = sw := rfl

@[simp] theorem QuadTree.south_east_mk (b c ps nw ne sw se) :
    (QuadTree.mk b c ps nw ne sw se).south_east = se := rfl

@[simp] theorem QuadTree.setPoints_mk (b c ps ps2 nw ne sw se) :
    (QuadTree.mk b c ps nw ne sw se).setPoints ps2 = QuadTree.mk b c ps2 nw ne sw se := rfl

@[simp] theorem QuadTree.setNW_mk (b c ps nw ne sw se o) :
    (QuadTree.mk b c ps nw ne sw se).setNW o = QuadTree.mk b c ps o ne sw se := rfl

@[simp] theorem QuadTree.setNE_mk (b c ps nw ne sw se o) :
    (QuadTree.mk b c ps nw ne sw se).setNE o = QuadTree.mk b c ps nw o sw se := rfl

@[simp] theorem QuadTree.setSW_mk (b c ps nw ne sw se o) :
    (QuadTree.mk b c ps nw ne sw se).setSW o = QuadTree.mk b c ps nw ne o se := rfl

@[simp] theorem QuadTree.setSE_mk (b c ps nw ne sw se o) :
    (QuadTree.mk b c ps nw ne sw se).setSE o = QuadTree.mk b c ps nw ne sw o := rfl

/-- The contribution of one optional child to `stored`. -/
def QuadTree.ostored (o : Option QuadTree) : List Rect :=
  match o with
  | some tr => tr.stored
  | none => []

/-- The contribution of one optional child to a `query` result: nothing when
the child is absent or pruned, its returned list otherwise. -/
def QuadTree.oquery (o : Option QuadTree) (range : Rect) : List Rect :=
  match o with
  | some tr => (tr.query range).getD []
  | none => []

/-- The all-or-nothing check of one optional child. -/
def QuadTree.oinv (o : Option QuadTree) : Bool :=
  match o with
  | some tr => tr.allOrNothing
  | none => true

/-- Shape extension on optional children. -/
def QuadTree.ole : Option QuadTree → Option QuadTree → Bool
  | none, _ => true
  | some a, some b => a.treeLe b
  | some _, none => false

theorem QuadTree.stored_mk (b c ps nw ne sw se) :
    (QuadTree.mk b c ps nw ne sw se).stored =
      ps ++ QuadTree.ostored nw ++ QuadTree.ostored ne ++
      QuadTree.ostored sw ++ QuadTree.ostored se := by
  cases nw <;> cases ne <;> cases sw <;> cases se <;> rfl

theorem QuadTree.allOrNothing_mk (b c ps nw ne sw se) :
    (QuadTree.mk b c ps nw ne sw se).allOrNothing =
      ((nw.isSome == ne.isSome && nw.isSome == sw.isSome && nw.isSome == se.isSome)
        && QuadTree.oinv nw && QuadTree.oinv ne && QuadTree.oinv sw && QuadTree.oinv se) := by
  cases nw <;> cases ne <;> cases sw <;> cases se <;> rfl

theorem QuadTree.treeLe_mk (b c ps nw ne sw se b2 c2 ps2 nw2 ne2 sw2 se2) :
    (QuadTree.mk b c ps nw ne sw se).treeLe (QuadTree.mk b2 c2 ps2 nw2 ne2 sw2 se2) =
      (QuadTree.ole nw nw2 && QuadTree.ole ne ne2 &&
       QuadTree.ole sw sw2 && QuadTree.ole se se2) := by
  cases nw <;> cases nw2 <;> cases ne <;> cases ne2 <;>
    cases sw <;> cases sw2 <;> cases se <;> cases se2 <;> rfl

theorem QuadTree.treeLe_refl : ∀ t : QuadTree, t.treeLe t = true := by
  intro t
  induction t using QuadTree.recTree with
  | h b c ps nw ne sw se ihnw ihne ihsw ihse =>
    rw [QuadTree.treeLe_mk]
    cases hnw : nw <;> cases hne : ne <;> cases hsw : sw <;> cases hse : se <;>
      simp_all [QuadTree.ole]

theorem QuadTree.treeLe_of_leaf (b c ps) (t2 : QuadTree) :
    (QuadTree.mk b c ps none none none none).treeLe t2 = true := by
  cases t2
  rw [QuadTree.treeLe_mk]
  rfl

/-- Outcomes of one slot of the child-dispatch loop. -/
theorem QuadTree.tryChild_spec (ins : QuadTree → Rect → Option (QuadTree × Bool))
    (point : Rect) (child o2 : Option QuadTree) (r : Bool)
    (h : QuadTree.tryChild ins point child = some (o2, r)) :
    (child = none ∧ o2 = none ∧ r = false) ∨
    (∃ tr tr2, child = some tr ∧ o2 = some tr2 ∧ ins tr point = some (tr2, r)) := by
  cases child with
  | none =>
    simp [QuadTree.tryChild] at h
    exact Or.inl ⟨rfl, h.1.symm, h.2⟩
  | some tr =>
    right
    simp only [QuadTree.tryChild] at h
    cases hins : ins tr point with
    | none => rw [hins] at h; simp at h
    | some pr =>
      rw [hins] at h
      obtain ⟨tr2, r2⟩ := pr
      simp at h
      exact ⟨tr, tr2, rfl, h.1.symm, by rw [hins, h.2]⟩

@[simp] theorem QuadTree.ole_refl : ∀ o : Option QuadTree, QuadTree.ole o o = true := by
  intro o
  cases o with
  | none => rfl
  | some a => simp [QuadTree.ole, QuadTree.treeLe_refl]

@[simp] theorem QuadTree.ostored_none : QuadTree.ostored none = [] := rfl

@[simp] theorem QuadTree.ostored_some (a : QuadTree) :
    QuadTree.ostored (some a) = a.stored := rfl

@[simp] theorem QuadTree.oinv_none : QuadTree.oinv none = true := rfl

@[simp] theorem QuadTree.oinv_some (a : QuadTree) :
    QuadTree.oinv (some a) = a.allOrNothing := rfl

/-- What one dispatch slot does to one child, given the induction hypothesis
for the recursive insert call on that child. -/
theorem QuadTree.tryChild_slot_facts
    (ins : QuadTree → Rect → Option (QuadTree × Bool)) (point : Rect)
    (child o2 : Option QuadTree) (r : Bool)
    (hstep : ∀ a a2 r2, ins a point = some (a2, r2) →
      (∀ q, q ∈ a2.stored → q ∈ a.stored ∨ q = point) ∧
      (a.allOrNothing = true → a2.allOrNothing = true) ∧
      (a.allOrNothing = true → a.treeLe a2 = true))
    (h : QuadTree.tryChild ins point child = some (o2, r)) :
    (∀ q, q ∈ QuadTree.ostored o2 → q ∈ QuadTree.ostored child ∨ q = point) ∧
    (QuadTree.oinv child = true → QuadTree.oinv o2 = true) ∧
    (QuadTree.oinv child = true → QuadTree.ole child o2 = true) ∧
    child.isSome = o2.isSome := by
  rcases QuadTree.tryChild_spec ins point child o2 r h with
    ⟨h1, h2, _⟩ | ⟨a, a2, h1, h2, h3⟩
  · subst h1; subst h2
    simp
  · subst h1; subst h2
    obtain ⟨s1, s2, s3⟩ := hstep a a2 r h3
    exact ⟨by simpa using s1, by simpa using s2, by simpa [QuadTree.ole] using s3, rfl⟩

/-- Trivial slot facts for a child the dispatch loop left unchanged. -/
theorem QuadTree.slot_facts_refl (o : Option QuadTree) (point : Rect) :
    (∀ q, q ∈ QuadTree.ostored o → q ∈ QuadTree.ostored o ∨ q = point) ∧
    (QuadTree.oinv o = true → QuadTree.oinv o = true) ∧
    (QuadTree.oinv o = true → QuadTree.ole o o = true) ∧
    o.isSome = o.isSome :=
  ⟨fun _ hq => Or.inl hq, id, fun _ => QuadTree.ole_refl o, rfl⟩

/-- Assembles per-slot facts about the four children into facts about the
whole node (entries only moved or added, invariant preserved, shape only
extended). -/
theorem QuadTree.node_facts_assemble {point : Rect} (b : Rect) (c : Nat) (ps : List Rect)
    {nw ne sw se nw2 ne2 sw2 se2 : Option QuadTree}
    (f1 : (∀ q, q ∈ QuadTree.ostored nw2 → q ∈ QuadTree.ostored nw ∨ q = point) ∧
      (QuadTree.oinv nw = true → QuadTree.oinv nw2 = true) ∧
      (QuadTree.oinv nw = true → QuadTree.ole nw nw2 = true) ∧ nw.isSome = nw2.isSome)
    (f2 : (∀ q, q ∈ QuadTree.ostored ne2 → q ∈ QuadTree.ostored ne ∨ q = point) ∧
      (QuadTree.oinv ne = true → QuadTree.oinv ne2 = true) ∧
      (QuadTree.oinv ne = true → QuadTree.ole ne ne2 = true) ∧ ne.isSome = ne2.isSome)
    (f3 : (∀ q, q ∈ QuadTree.ostored sw2 → q ∈ QuadTree.ostored sw ∨ q = point) ∧
      (QuadTree.oinv sw = true → QuadTree.oinv sw2 = true) ∧
      (QuadTree.oinv sw = true → QuadTree.ole sw sw2 = true) ∧ sw.isSome = sw2.isSome)
    (f4 : (∀ q, q ∈ QuadTree.ostored se2 → q ∈ QuadTree.ostored se ∨ q = point) ∧
      (QuadTree.oinv se = true → QuadTree.oinv se2 = true) ∧
      (QuadTree.oinv se = true → QuadTree.ole se se2 = true) ∧ se.isSome = se2.isSome) :
    (∀ q, q ∈ (QuadTree.mk b c ps nw2 ne2 sw2 se2).stored →
      q ∈ (QuadTree.mk b c ps nw ne sw se).stored ∨ q = point) ∧
    ((QuadTree.mk b c ps nw ne sw se).allOrNothing = true →
      (QuadTree.mk b c ps nw2 ne2 sw2 se2).allOrNothing = true) ∧
    ((QuadTree.mk b c ps nw ne sw se).allOrNothing = true →
      (QuadTree.mk b c ps nw ne sw se).treeLe (QuadTree.mk b c ps nw2 ne2 sw2 se2) = true) := by
  obtain ⟨m1, i1, l1, s1⟩ := f1
  obtain ⟨m2, i2, l2, s2⟩ := f2
  obtain ⟨m3, i3, l3, s3⟩ := f3
  obtain ⟨m4, i4, l4, s4⟩ := f4
  refine ⟨?_, ?_, ?_⟩
  · intro q hq
    rw [QuadTree.stored_mk] at hq
    rw [QuadTree.stored_mk]
    simp only [List.mem_append, or_assoc] at hq ⊢
    rcases hq with hq | hq | hq | hq | hq
    · exact Or.inl hq
    · rcases m1 q hq with h | h
      · exact Or.inr (Or.inl h)
      · exact Or.inr (Or.inr (Or.inr (Or.inr (Or.inr h))))
    · rcases m2 q hq with h | h
      · exact Or.inr (Or.inr (Or.inl h))
      · exact Or.inr (Or.inr (Or.inr (Or.inr (Or.inr h))))
    · rcases m3 q hq with h | h
      · exact Or.inr (Or.inr (Or.inr (Or.inl h)))
      · exact Or.inr (Or.inr (Or.inr (Or.inr (Or.inr h))))
    · rcases m4 q hq with h | h
      · exact Or.inr (Or.inr (Or.inr (Or.inr (Or.inl h))))
      · exact Or.inr (Or.inr (Or.inr (Or.inr (Or.inr h))))
  · intro h
    rw [QuadTree.allOrNothing_mk] at h ⊢
    simp only [Bool.and_eq_true, beq_iff_eq, and_assoc] at h ⊢
    obtain ⟨e1, e2, e3, j1, j2, j3, j4⟩ := h
    rw [← s1, ← s2, ← s3, ← s4]
    exact ⟨e1, e2, e3, i1 j1, i2 j2, i3 j3, i4 j4⟩
  · intro h
    rw [QuadTree.allOrNothing_mk] at h
    simp only [Bool.and_eq_true, beq_iff_eq, and_assoc] at h
    obtain ⟨e1, e2, e3, j1, j2, j3, j4⟩ := h
    rw [QuadTree.treeLe_mk]
    simp only [Bool.and_eq_true, and_assoc]
    exact ⟨l1 j1, l2 j2, l3 j3, l4 j4⟩

/-- What the whole child-dispatch loop does to a node: it leaves the node's
own fields intact, only adds the one inserted entry, preserves the
all-or-nothing invariant and only extends the shape. -/
theorem QuadTree.insertChildren_facts
    (ins : QuadTree → Rect → Option (QuadTree × Bool)) (point : Rect)
    (t1 t2 : QuadTree) (r : Bool)
    (hstep : ∀ a a2 r2, ins a point = some (a2, r2) →
      (∀ q, q ∈ a2.stored → q ∈ a.stored ∨ q = point) ∧
      (a.allOrNothing = true → a2.allOrNothing = true) ∧
      (a.allOrNothing = true → a.treeLe a2 = true))
    (h : QuadTree.insertChildren ins point t1 = some (t2, r)) :
    t2.points = t1.points ∧ t2.boundary = t1.boundary ∧ t2.capacity = t1.capacity ∧
    (∀ q, q ∈ t2.stored → q ∈ t1.stored ∨ q = point) ∧
    (t1.allOrNothing = true → t2.allOrNothing = true) ∧
    (t1.allOrNothing = true → t1.treeLe t2 = true) := by
  obtain ⟨b, c, ps, nw, ne, sw, se⟩ := t1
  rw [QuadTree.insertChildren] at h
  simp only [QuadTree.north_west_mk, QuadTree.north_east_mk, QuadTree.south_west_mk,
    QuadTree.south_east_mk, QuadTree.setNW_mk, QuadTree.setNE_mk, QuadTree.setSW_mk,
    QuadTree.setSE_mk] at h
  cases h1 : QuadTree.tryChild ins point nw with
  | none => rw [h1] at h; simp at h
  | some pr1 =>
    obtain ⟨nw2, rnw⟩ := pr1
    rw [h1] at h
    have f1 := QuadTree.tryChild_slot_facts ins point nw nw2 rnw hstep h1
    dsimp only [] at h
    cases rnw with
    | true =>
      rw [if_pos rfl] at h
      rw [Option.some.injEq, Prod.mk.injEq] at h
      obtain ⟨h2, h3⟩ := h
      subst h2
      subst h3
      have A := QuadTree.node_facts_assemble b c ps
        f1 (QuadTree.slot_facts_refl ne point) (QuadTree.slot_facts_refl sw point)
        (QuadTree.slot_facts_refl se point)
      exact ⟨rfl, rfl, rfl, A.1, A.2.1, A.2.2⟩
    | false =>
      rw [if_neg (by simp)] at h
      cases h2 : QuadTree.tryChild ins point ne with
      | none => rw [h2] at h; simp at h
      | some pr2 =>
        obtain ⟨ne2, rne⟩ := pr2
        rw [h2] at h
        have f2 := QuadTree.tryChild_slot_facts ins point ne ne2 rne hstep h2
        dsimp only [] at h
        cases rne with
        | true =>
          rw [if_pos rfl] at h
          rw [Option.some.injEq, Prod.mk.injEq] at h
          obtain ⟨h3, h4⟩ := h
          subst h3
          subst h4
          have A := QuadTree.node_facts_assemble b c ps
            f1 f2 (QuadTree.slot_facts_refl sw point) (QuadTree.slot_facts_refl se point)
          exact ⟨rfl, rfl, rfl, A.1, A.2.1, A.2.2⟩
        | false =>
          rw [if_neg (by simp)] at h
          cases h3 : QuadTree.tryChild ins point sw with
          | none => rw [h3] at h; simp at h
          | some pr3 =>
            obtain ⟨sw2, rsw⟩ := pr3
            rw [h3] at h
            have f3 := QuadTree.tryChild_slot_facts ins point sw sw2 rsw hstep h3
            dsimp only [] at h
            cases rsw with
            | true =>
              rw [if_pos rfl] at h
              rw [Option.some.injEq, Prod.mk.injEq] at h
              obtain ⟨h4, h5⟩ := h
              subst h4
              subst h5
              have A := QuadTree.node_facts_assemble b c ps
                f1 f2 f3 (QuadTree.slot_facts_refl se point)
              exact ⟨rfl, rfl, rfl, A.1, A.2.1, A.2.2⟩
            | false =>
              rw [if_neg (by simp)] at h
              cases h4 : QuadTree.tryChild ins point se with
              | none => rw [h4] at h; simp at h
              | some pr4 =>
                obtain ⟨se2, rse⟩ := pr4
                rw [h4] at h
                have f4 := QuadTree.tryChild_slot_facts ins point se se2 rse hstep h4
                dsimp only [] at h
                rw [Option.some.injEq, Prod.mk.injEq] at h
                obtain ⟨h5, h6⟩ := h
                subst h5
                subst h6
                have A := QuadTree.node_facts_assemble b c ps
                  f1 f2 f3 f4
                exact ⟨rfl, rfl, rfl, A.1, A.2.1, A.2.2⟩

/-- `subdivide` always re-establishes the all-or-nothing invariant: all four
children are replaced by fresh leaves. -/
theorem QuadTree.allOrNothing_subdivide (t : QuadTree) :
    t.subdivide.allOrNothing = true := by
  obtain ⟨b, c, ps, nw, ne, sw, se⟩ := t
  rfl

/-- The stored entries of a subdivided node are exactly its direct entries:
the four fresh children are empty (and any previous children — which can only
exist in malformed states the code never reaches — are dropped). -/
theorem QuadTree.stored_subdivide (t : QuadTree) :
    t.subdivide.stored = t.points := by
  obtain ⟨b, c, ps, nw, ne, sw, se⟩ := t
  simp [QuadTree.subdivide, QuadTree.stored_mk, QuadTree.ostored]
  exact ⟨rfl, rfl, rfl, rfl⟩

/-- Core step lemma for one (terminating) `insert` call: the resulting tree
stores only previously stored entries plus possibly the new one, the
all-or-nothing invariant is preserved, and on an invariant-satisfying tree
the shape is only ever extended (no node reverts to a leaf). -/
theorem QuadTree.insertFuel_facts :
    ∀ (fuel : Nat) (t : QuadTree) (p : Rect) (t2 : QuadTree) (r : Bool),
    QuadTree.insertFuel fuel t p = some (t2, r) →
    (∀ q, q ∈ t2.stored → q ∈ t.stored ∨ q = p) ∧
    (t.allOrNothing = true → t2.allOrNothing = true) ∧
    (t.allOrNothing = true → t.treeLe t2 = true) := by
  intro fuel
  induction fuel with
  | zero =>
    intro t p t2 r h
    simp [QuadTree.insertFuel] at h
  | succ n ih =>
    intro t p t2 r h
    rw [QuadTree.insertFuel] at h
    split at h
    · rw [Option.some.injEq, Prod.mk.injEq] at h
      obtain ⟨h1, _⟩ := h
      subst h1
      exact ⟨fun q hq => Or.inl hq, id, fun _ => QuadTree.treeLe_refl t⟩
    · split at h
      · rename_i hcap
        rw [Option.some.injEq, Prod.mk.injEq] at h
        obtain ⟨h1, _⟩ := h
        subst h1
        simp only [Bool.and_eq_true, Option.isNone_iff_eq_none, decide_eq_true_eq] at hcap
        obtain ⟨b, c, ps, nw, ne, sw, se⟩ := t
        simp only [QuadTree.north_west_mk] at hcap
        obtain ⟨_, hnw⟩ := hcap
        subst hnw
        refine ⟨?_, ?_, ?_⟩
        · intro q hq
          rw [QuadTree.setPoints_mk, QuadTree.stored_mk] at hq
          rw [QuadTree.stored_mk]
          simp only [QuadTree.points_mk, List.mem_append, or_assoc, List.mem_singleton] at hq ⊢
          tauto
        · intro hinv
          rw [QuadTree.setPoints_mk, QuadTree.allOrNothing_mk]
          rw [QuadTree.allOrNothing_mk] at hinv
          exact hinv
        · intro _
          rw [QuadTree.setPoints_mk, QuadTree.points_mk, QuadTree.treeLe_mk]
          simp
      · rename_i hcap
        have hstep : ∀ a a2 r2, QuadTree.insertFuel n a p = some (a2, r2) →
            (∀ q, q ∈ a2.stored → q ∈ a.stored ∨ q = p) ∧
            (a.allOrNothing = true → a2.allOrNothing = true) ∧
            (a.allOrNothing = true → a.treeLe a2 = true) :=
          fun a a2 r2 ha => ih a p a2 r2 ha
        by_cases hnw : t.north_west.isNone = true
        · rw [if_pos hnw] at h
          have F := QuadTree.insertChildren_facts (QuadTree.insertFuel n) p t.subdivide t2 r hstep h
          have hsub := QuadTree.allOrNothing_subdivide t
          refine ⟨?_, fun _ => F.2.2.2.2.1 hsub, ?_⟩
          · intro q hq
            rcases F.2.2.2.1 q hq with h1 | h1
            · rw [QuadTree.stored_subdivide] at h1
              left
              obtain ⟨b, c, ps, nw, ne, sw, se⟩ := t
              rw [QuadTree.stored_mk]
              simp only [QuadTree.points_mk] at h1
              simp only [List.mem_append]
              tauto
            · exact Or.inr h1
          · intro hinv
            obtain ⟨b, c, ps, nw, ne, sw, se⟩ := t
            simp only [QuadTree.north_west_mk, Option.isNone_iff_eq_none] at hnw
            subst hnw
            rw [QuadTree.allOrNothing_mk] at hinv
            simp only [Bool.and_eq_true, beq_iff_eq, and_assoc, Option.isSome_none] at hinv
            obtain ⟨e1, e2, e3, _⟩ := hinv
            have hne : ne = none := by
              cases ne with
              | none => rfl
              | some a => simp at e1
            have hsw : sw = none := by
              cases sw with
              | none => rfl
              | some a => simp at e2
            have hse : se = none := by
              cases se with
              | none => rfl
              | some a => simp at e3
            subst hne; subst hsw; subst hse
            exact QuadTree.treeLe_of_leaf b c ps t2
        · rw [if_neg hnw] at h
          have F := QuadTree.insertChildren_facts (QuadTree.insertFuel n) p t t2 r hstep h
          exact ⟨F.2.2.2.1, F.2.2.2.2.1, F.2.2.2.2.2⟩

/-- `query` returns the empty signal exactly when the node boundary fails the
strict intersection test. -/
theorem QuadTree.query_eq_none_iff (t : QuadTree) (range : Rect) :
    t.query range = none ↔ t.boundary.intersects range = false := by
  obtain ⟨b, c, ps, nw, ne, sw, se⟩ := t
  rw [QuadTree.query.eq_def]
  simp only [QuadTree.boundary_mk]
  cases nw <;> cases hint : b.intersects range <;> simp [hint]

/-- `query` on a node without a `north_west` child: the source returns the
directly stored entries that the region contains, in insertion order, at
once (not consulting the other child slots). -/
theorem QuadTree.query_nw_none (b : Rect) (c : Nat) (ps : List Rect)
    (ne sw se : Option QuadTree) (range : Rect)
    (hint : b.intersects range = true) :
    (QuadTree.mk b c ps none ne sw se).query range =
      some (ps.filter (fun p => range.contains p)) := by
  rw [QuadTree.query]
  simp [hint]

/-- `query` on a node whose `north_west` child is present: direct matches
followed by the NW, NE, SW, SE child contributions in that fixed order. -/
theorem QuadTree.query_internal (b : Rect) (c : Nat) (ps : List Rect)
    (tnw : QuadTree) (ne sw se : Option QuadTree) (range : Rect)
    (hint : b.intersects range = true) :
    (QuadTree.mk b c ps (some tnw) ne sw se).query range =
      some (ps.filter (fun p => range.contains p) ++ (tnw.query range).getD []
        ++ QuadTree.oquery ne range ++ QuadTree.oquery sw range
        ++ QuadTree.oquery se range) := by
  rw [QuadTree.query.eq_def]
  cases ne <;> cases sw <;> cases se <;> simp [hint, QuadTree.oquery]

/-- Everything `query` returns is stored in the tree. -/
theorem QuadTree.query_stored_sub :
    ∀ (t : QuadTree) (range : Rect) (q : Rect),
    q ∈ (t.query range).getD [] → q ∈ t.stored := by
  intro t
  induction t using QuadTree.recTree with
  | h b c ps nw ne sw se ihnw ihne ihsw ihse =>
    intro range q hq
    rw [QuadTree.stored_mk]
    simp only [List.mem_append, or_assoc]
    cases hint : b.intersects range with
    | false =>
      rw [(QuadTree.query_eq_none_iff _ range).mpr (by simpa using hint)] at hq
      simp at hq
    | true =>
      cases hnw : nw with
      | none =>
        rw [hnw, QuadTree.query_nw_none b c ps ne sw se range hint] at hq
        simp only [Option.getD_some, List.mem_filter] at hq
        exact Or.inl hq.1
      | some tnw =>
        rw [hnw, QuadTree.query_internal b c ps tnw ne sw se range hint] at hq
        simp only [Option.getD_some, List.mem_append, or_assoc] at hq
        rcases hq with hq | hq | hq | hq | hq
        · exact Or.inl (List.mem_filter.mp hq).1
        · exact Or.inr (Or.inl (by simpa using ihnw tnw hnw range q hq))
        · right; right; left
          cases hne : ne with
          | none => rw [hne] at hq; simp [QuadTree.oquery] at hq
          | some tne =>
            rw [hne] at hq
            simpa using ihne tne hne range q (by simpa [QuadTree.oquery] using hq)
        · right; right; right; left
          cases hsw : sw with
          | none => rw [hsw] at hq; simp [QuadTree.oquery] at hq
          | some tsw =>
            rw [hsw] at hq
            simpa using ihsw tsw hsw range q (by simpa [QuadTree.oquery] using hq)
        · right; right; right; right
          cases hse : se with
          | none => rw [hse] at hq; simp [QuadTree.oquery] at hq
          | some tse =>
            rw [hse] at hq
            simpa using ihse tse hse range q (by simpa [QuadTree.oquery] using hq)

/-- Entries of a tree produced by a sequence of inserts: only previously
stored entries and inserted ones. -/
theorem QuadTree.insertAll_stored_sub :
    ∀ (es : List Rect) (fuel : Nat) (t t2 : QuadTree) (r : Bool),
    QuadTree.insertAll fuel t es = some (t2, r) →
    ∀ q, q ∈ t2.stored → q ∈ t.stored ∨ q ∈ es := by
  intro es
  induction es with
  | nil =>
    intro fuel t t2 r h q hq
    rw [QuadTree.insertAll] at h
    rw [Option.some.injEq, Prod.mk.injEq] at h
    obtain ⟨h1, _⟩ := h
    subst h1
    exact Or.inl hq
  | cons e es ihes =>
    intro fuel t t2 r h q hq
    rw [QuadTree.insertAll] at h
    cases h1 : QuadTree.insertFuel fuel t e with
    | none => rw [h1] at h; simp at h
    | some pr1 =>
      obtain ⟨tmid, r1⟩ := pr1
      rw [h1] at h
      dsimp only [] at h
      cases h2 : QuadTree.insertAll fuel tmid es with
      | none => rw [h2] at h; simp at h
      | some pr2 =>
        obtain ⟨tfin, r2⟩ := pr2
        rw [h2] at h
        dsimp only [] at h
        rw [Option.some.injEq, Prod.mk.injEq] at h
        obtain ⟨h3, _⟩ := h
        subst h3
        rcases ihes fuel tmid tfin r2 h2 q hq with hm | hm
        · rcases (QuadTree.insertFuel_facts fuel t e tmid r1 h1).1 q hm with hh | hh
          · exact Or.inl hh
          · exact Or.inr (by simp [hh])
        · exact Or.inr (List.mem_cons_of_mem e hm)

@[simp] theorem QuadTree.isLeaf_new (q : Rect) (c : Nat) :
    (QuadTree.new q c).isLeaf = true := rfl

@[simp] theorem QuadTree.isLeaf_mk_none (q : Rect) (c : Nat) (ps : List Rect) :
    (QuadTree.mk q c ps none none none none).isLeaf = true := rfl

/-- A rectangle strictly intersects itself exactly when it has positive
extent on both axes. -/
theorem Rect.intersects_self (b : Rect) (hw : 0 < b.w) (hh : 0 < b.h) :
    b.intersects b = true := by
  simp only [Rect.intersects, Bool.and_eq_true, decide_eq_true_eq]
  omega

/-- Inserting a list of in-bounds entries into a leaf with enough spare
capacity appends them all to the leaf's entry list, every call returning
`true`, and never subdivides. -/
theorem QuadTree.insertAll_fills_leaf :
    ∀ (es : List Rect) (b : Rect) (c : Nat) (ps : List Rect) (fuel : Nat),
    1 ≤ fuel → (∀ e ∈ es, b.contains e = true) → ps.length + es.length ≤ c →
    QuadTree.insertAll fuel (QuadTree.mk b c ps none none none none) es =
      some (QuadTree.mk b c (ps ++ es) none none none none, true) := by
  intro es
  induction es with
  | nil =>
    intro b c ps fuel _ _ _
    rw [QuadTree.insertAll]
    simp
  | cons e es ihes =>
    intro b c ps fuel hfuel hin hlen
    obtain ⟨n, rfl⟩ : ∃ n, fuel = n + 1 := ⟨fuel - 1, by omega⟩
    rw [QuadTree.insertAll]
    have hce : b.contains e = true := hin e (by simp)
    have hlt : ps.length < c := by simp at hlen; omega
    have hstep : QuadTree.insertFuel (n+1) (QuadTree.mk b c ps none none none none) e =
        some (QuadTree.mk b c (ps ++ [e]) none none none none, true) := by
      rw [QuadTree.insertFuel]
      simp [hce, hlt]
    rw [hstep]
    dsimp only []
    rw [ihes b c (ps ++ [e]) (n+1) (by omega) (fun x hx => hin x (by simp [hx]))
      (by simp at hlen ⊢; omega)]
    simp

/-- Sequential insertion splits over list append. -/
theorem QuadTree.insertAll_append (xs ys : List Rect) (fuel : Nat) (t : QuadTree) :
    QuadTree.insertAll fuel t (xs ++ ys) =
      (QuadTree.insertAll fuel t xs).bind (fun pr =>
        (QuadTree.insertAll fuel pr.1 ys).map (fun pr2 => (pr2.1, pr.2 && pr2.2))) := by
  induction xs generalizing t with
  | nil =>
    rw [List.nil_append, QuadTree.insertAll]
    cases h : QuadTree.insertAll fuel t ys with
    | none => simp [h]
    | some pr =>
      obtain ⟨t2, r2⟩ := pr
      simp [h]
  | cons e xs ihxs =>
    rw [List.cons_append, QuadTree.insertAll, QuadTree.insertAll]
    cases h1 : QuadTree.insertFuel fuel t e with
    | none => rfl
    | some pr1 =>
      obtain ⟨t1, r1⟩ := pr1
      dsimp only []
      rw [ihxs t1]
      cases h2 : QuadTree.insertAll fuel t1 xs with
      | none => rfl
      | some pr2 =>
        obtain ⟨t3, r2⟩ := pr2
        cases h3 : QuadTree.insertAll fuel t3 ys with
        | none => simp [h3]
        | some pr3 =>
          obtain ⟨t4, r3⟩ := pr3
          simp [h3, Bool.and_assoc]

/-- A terminating insert into a fresh leaf with positive capacity: accepted
and stored directly when the boundary contains the origin, rejected (tree
unchanged) otherwise. -/
theorem QuadTree.insertFuel_fresh (fuel : Nat) (q : Rect) (c : Nat) (p : Rect)
    (hc : 1 ≤ c) :
    QuadTree.insertFuel (fuel+1) (QuadTree.new q c) p =
      if q.contains p then some (QuadTree.mk q c [p] none none none none, true)
      else some (QuadTree.new q c, false) := by
  have hc0 : 0 < c := hc
  rw [QuadTree.insertFuel]
  cases hq : q.contains p with
  | false => simp [QuadTree.new, hq]
  | true => simp [QuadTree.new, hq, hc0]

/-- The child dispatch on a node whose four children are all fresh leaves
(the state right after a subdivision) terminates with two levels of fuel and
leaves every child a leaf: the entry lands in the first quadrant containing
it, or is rejected by all four. -/
theorem QuadTree.insertChildren_fresh (fuel : Nat) (b : Rect) (c : Nat)
    (ps : List Rect) (p : Rect) (q1 q2 q3 q4 : Rect) (hc : 1 ≤ c) :
    ∃ t2 r, QuadTree.insertChildren (QuadTree.insertFuel (fuel+1)) p
        (QuadTree.mk b c ps (some (QuadTree.new q1 c)) (some (QuadTree.new q2 c))
          (some (QuadTree.new q3 c)) (some (QuadTree.new q4 c))) = some (t2, r) ∧
      t2.points = ps ∧ t2.boundary = b ∧ t2.capacity = c ∧
      t2.north_west.map QuadTree.isLeaf = some true ∧
      t2.north_east.map QuadTree.isLeaf = some true ∧
      t2.south_west.map QuadTree.isLeaf = some true ∧
      t2.south_east.map QuadTree.isLeaf = some true := by
  rw [QuadTree.insertChildren]
  simp only [QuadTree.north_west_mk, QuadTree.north_east_mk, QuadTree.south_west_mk,
    QuadTree.south_east_mk, QuadTree.setNW_mk, QuadTree.setNE_mk, QuadTree.setSW_mk,
    QuadTree.setSE_mk, QuadTree.tryChild, QuadTree.insertFuel_fresh fuel _ c p hc]
  cases hq1 : q1.contains p with
  | true =>
    simp only [if_pos rfl, if_true]
    exact ⟨_, _, rfl, rfl, rfl, rfl, rfl, rfl, rfl, rfl⟩
  | false =>
    simp only [Bool.false_eq_true, if_neg, if_false]
    cases hq2 : q2.contains p with
    | true =>
      simp only [if_pos rfl, if_true]
      exact ⟨_, _, rfl, rfl, rfl, rfl, rfl, rfl, rfl, rfl⟩
    | false =>
      simp only [Bool.false_eq_true, if_neg, if_false]
      cases hq3 : q3.contains p with
      | true =>
        simp only [if_pos rfl, if_true]
        exact ⟨_, _, rfl, rfl, rfl, rfl, rfl, rfl, rfl, rfl⟩
      | false =>
        simp only [Bool.false_eq_true, if_neg, if_false]
        cases hq4 : q4.contains p with
        | true =>
          simp only [if_pos rfl, if_true]
          exact ⟨_, _, rfl, rfl, rfl, rfl, rfl, rfl, rfl, rfl⟩
        | false =>
          simp only [Bool.false_eq_true, if_neg, if_false]
          exact ⟨_, _, rfl, rfl, rfl, rfl, rfl, rfl, rfl, rfl⟩

/-- Inserting an in-bounds entry into a full leaf (positive capacity)
subdivides exactly once: the result keeps the direct entries, and all four
children exist and are still leaves. -/
theorem QuadTree.insert_full_leaf (fuel : Nat) (b : Rect) (c : Nat)
    (ps : List Rect) (p : Rect) (hc : 1 ≤ c) (hfull : ¬ ps.length < c)
    (hcont : b.contains p = true) :
    ∃ t2 r, QuadTree.insertFuel (fuel+2)
        (QuadTree.mk b c ps none none none none) p = some (t2, r) ∧
      t2.points = ps ∧ t2.boundary = b ∧ t2.capacity = c ∧
      t2.north_west.map QuadTree.isLeaf = some true ∧
      t2.north_east.map QuadTree.isLeaf = some true ∧
      t2.south_west.map QuadTree.isLeaf = some true ∧
      t2.south_east.map QuadTree.isLeaf = some true := by
  rw [show fuel + 2 = (fuel + 1) + 1 by omega, QuadTree.insertFuel]
  simp only [QuadTree.boundary_mk, QuadTree.points_mk, QuadTree.capacity_mk,
    QuadTree.north_west_mk, hcont, Bool.not_true, Bool.false_eq_true, if_false,
    Option.isNone_none, Bool.and_true, decide_eq_true_eq, hfull, if_pos,
    QuadTree.subdivide]
  exact QuadTree.insertChildren_fresh fuel b c ps p _ _ _ _ hc

/-- The inclusive containment test, spelled out. -/
theorem Rect.contains_iff (self p : Rect) :
    self.contains p = true ↔
      (self.x ≤ p.x ∧ p.x ≤ self.x + self.w ∧ self.y ≤ p.y ∧ p.y ≤ self.y + self.h) := by
  simp [Rect.contains, and_assoc, ge_iff_le]

/-- The strict intersection test, spelled out. -/
theorem Rect.intersects_iff (a b : Rect) :
    a.intersects b = true ↔
      (a.x < b.x + b.w ∧ b.x < a.x + a.w ∧ a.y < b.y + b.h ∧ b.y < a.y + a.h) := by
  simp [Rect.intersects, and_assoc, gt_iff_lt]

/-- C6: `contains` is true exactly when the point's `x` lies in the inclusive
interval from `container.x` to `container.x + container.w` and its `y` in the
inclusive interval from `container.y` to `container.y + container.h`; for the
boundary with corner `(0,0)` and extent `10 × 10`, the points `(0,0)`,
`(10,10)`, `(10,0)` and `(0,10)` are contained while `(11,0)` and `(-1,5)`
are not. -/
theorem C6_contains_inclusive :
    (∀ container p : Rect, container.contains p = true ↔
      (container.x ≤ p.x ∧ p.x ≤ container.x + container.w ∧
       container.y ≤ p.y ∧ p.y ≤ container.y + container.h)) ∧
    (Rect.mk 0 0 10 10).contains (Rect.mk 0 0 1 1) = true ∧
    (Rect.mk 0 0 10 10).contains (Rect.mk 10 10 1 1) = true ∧
    (Rect.mk 0 0 10 10).contains (Rect.mk 10 0 1 1) = true ∧
    (Rect.mk 0 0 10 10).contains (Rect.mk 0 10 1 1) = true ∧
    (Rect.mk 0 0 10 10).contains (Rect.mk 11 0 1 1) = false ∧
    (Rect.mk 0 0 10 10).contains (Rect.mk (-1) 5 1 1) = false :=
  ⟨Rect.contains_iff, by decide, by decide, by decide, by decide, by decide, by decide⟩

/-- C7: `intersects` uses strict inequalities, so rectangles touching
exactly at an edge do not intersect; the boundary `(0,0,10,10)` does not
intersect `(10,0,10,10)` (touching at `x = 10`) but does intersect
`(9,0,10,10)` (overlapping by one unit). -/
theorem C7_intersects_strict :
    (∀ a b : Rect, a.intersects b = true ↔
      (a.x < b.x + b.w ∧ b.x < a.x + a.w ∧ a.y < b.y + b.h ∧ b.y < a.y + a.h)) ∧
    (∀ a b : Rect,
      a.x + a.w = b.x ∨ b.x + b.w = a.x ∨ a.y + a.h = b.y ∨ b.y + b.h = a.y →
      a.intersects b = false) ∧
    (Rect.mk 0 0 10 10).intersects (Rect.mk 10 0 10 10) = false ∧
    (Rect.mk 0 0 10 10).intersects (Rect.mk 9 0 10 10) = true := by
  refine ⟨Rect.intersects_iff, ?_, by decide, by decide⟩
  intro a b h
  cases hI : a.intersects b with
  | false => rfl
  | true =>
    obtain ⟨h1, h2, h3, h4⟩ := (Rect.intersects_iff a b).mp hI
    rcases h with h | h | h | h <;> omega

/-- C7 witness: the edge-touching implication applied at the concrete
example rectangles. -/
theorem C7_witness :
    (Rect.mk 0 0 10 10).intersects (Rect.mk 10 0 10 10) = false :=
  C7_intersects_strict.2.1 (Rect.mk 0 0 10 10) (Rect.mk 10 0 10 10) (Or.inl (by decide))

/-- C5: `subdivide` keeps the node's boundary, capacity and direct entries,
and creates exactly four leaf children with empty entry lists, inheriting
the capacity unchanged, over the quadrants obtained by truncating halving:
north-west `(x, y, w/2, h/2)`, north-east `(x+w/2, y, w/2, h/2)`,
south-west `(x, y+h/2, w/2, h/2)`, south-east `(x+w/2, y+h/2, w/2, h/2)`. -/
theorem C5_subdivide_spec (t : QuadTree) :
    t.subdivide.boundary = t.boundary ∧
    t.subdivide.capacity = t.capacity ∧
    t.subdivide.points = t.points ∧
    t.subdivide.north_west = some (QuadTree.mk
      (Rect.mk t.boundary.x t.boundary.y
        (Int.tdiv t.boundary.w 2) (Int.tdiv t.boundary.h 2))
      t.capacity [] none none none none) ∧
    t.subdivide.north_east = some (QuadTree.mk
      (Rect.mk (t.boundary.x + Int.tdiv t.boundary.w 2) t.boundary.y
        (Int.tdiv t.boundary.w 2) (Int.tdiv t.boundary.h 2))
      t.capacity [] none none none none) ∧
    t.subdivide.south_west = some (QuadTree.mk
      (Rect.mk t.boundary.x (t.boundary.y + Int.tdiv t.boundary.h 2)
        (Int.tdiv t.boundary.w 2) (Int.tdiv t.boundary.h 2))
      t.capacity [] none none none none) ∧
    t.subdivide.south_east = some (QuadTree.mk
      (Rect.mk (t.boundary.x + Int.tdiv t.boundary.w 2)
        (t.boundary.y + Int.tdiv t.boundary.h 2)
        (Int.tdiv t.boundary.w 2) (Int.tdiv t.boundary.h 2))
      t.capacity [] none none none none) := by
  obtain ⟨b, c, ps, nw, ne, sw, se⟩ := t
  exact ⟨rfl, rfl, rfl, rfl, rfl, rfl, rfl⟩

/-- C8: inserting an entry whose origin the root boundary does not contain
(inclusive test) returns `false` and leaves the tree literally unchanged —
in particular the total stored-entry count is unchanged; it does so even
with no fuel left for child calls, witnessing that no child is visited. -/
theorem C8_out_of_bounds_rejection (fuel : Nat) (t : QuadTree) (p : Rect)
    (h : t.boundary.contains p = false) :
    QuadTree.insertFuel (fuel+1) t p = some (t, false) ∧
    QuadTree.insertFuel 1 t p = some (t, false) ∧
    (QuadTree.insertFuel (fuel+1) t p).map (fun pr => pr.1.size) = some t.size := by
  have key : ∀ n, QuadTree.insertFuel (n+1) t p = some (t, false) := by
    intro n
    rw [QuadTree.insertFuel]
    simp [h]
  exact ⟨key fuel, key 0, by rw [key fuel]; rfl⟩

/-- C8 witness: the out-of-bounds rejection applied to a concrete tree and
entry. -/
theorem C8_witness :
    QuadTree.insertFuel 1 (QuadTree.new (Rect.mk 0 0 10 10) 4)
        (Rect.mk 11 0 1 1) = some (QuadTree.new (Rect.mk 0 0 10 10) 4, false) :=
  (C8_out_of_bounds_rejection 0 (QuadTree.new (Rect.mk 0 0 10 10) 4)
    (Rect.mk 11 0 1 1) (by decide)).1

/-- C9: every tree reachable from `QuadTree::new` by terminating `insert`
calls satisfies the all-or-nothing child invariant at every node, and a
terminating insert on an invariant-satisfying tree only extends the shape:
every node that has children keeps them (no node reverts to a leaf). -/
theorem C9_all_or_nothing_invariant :
    (∀ t, QuadTree.Reachable t → t.allOrNothing = true) ∧
    (∀ (fuel : Nat) (t : QuadTree) (p : Rect) (t2 : QuadTree) (r : Bool),
      t.allOrNothing = true → QuadTree.insertFuel fuel t p = some (t2, r) →
      t.treeLe t2 = true) := by
  constructor
  · intro t ht
    induction ht with
    | base b c => rfl
    | step t p fuel t2 r hre heq ih =>
      exact (QuadTree.insertFuel_facts fuel t p t2 r heq).2.1 ih
  · intro fuel t p t2 r hinv heq
    exact (QuadTree.insertFuel_facts fuel t p t2 r heq).2.2 hinv

/-- C9 witness: the invariant at a concrete reachable tree, and shape
extension along a concrete insert. -/
theorem C9_witness :
    (QuadTree.new (Rect.mk 0 0 800 450) 4).allOrNothing = true ∧
    (QuadTree.new (Rect.mk 0 0 800 450) 4).treeLe
      (QuadTree.mk (Rect.mk 0 0 800 450) 4 [Rect.mk 3 3 1 1]
        none none none none) = true :=
  ⟨C9_all_or_nothing_invariant.1 _
    (QuadTree.Reachable.base (Rect.mk 0 0 800 450) 4),
   C9_all_or_nothing_invariant.2 1 (QuadTree.new (Rect.mk 0 0 800 450) 4)
    (Rect.mk 3 3 1 1) _ true rfl rfl⟩

/-- C10: a reachable state and an in-bounds entry on which `insert` returns
`false` yet mutates the tree: the root `(0,0,11,11)` with capacity 1 holding
one entry is reachable; inserting the in-bounds entry at `(11,0)` subdivides
the full leaf, no quadrant's truncated boundary contains `(11,0)`, so the
call returns `false` but leaves four newly created empty children behind. -/
theorem C10_failed_insert_mutates :
    QuadTree.insertFuel 1 (QuadTree.new (Rect.mk 0 0 11 11) 1) (Rect.mk 0 0 1 1) =
      some (QuadTree.mk (Rect.mk 0 0 11 11) 1 [Rect.mk 0 0 1 1]
        none none none none, true) ∧
    (Rect.mk 0 0 11 11).contains (Rect.mk 11 0 1 1) = true ∧
    QuadTree.insertFuel 2
        (QuadTree.mk (Rect.mk 0 0 11 11) 1 [Rect.mk 0 0 1 1] none none none none)
        (Rect.mk 11 0 1 1) =
      some (QuadTree.mk (Rect.mk 0 0 11 11) 1 [Rect.mk 0 0 1 1]
        (some (QuadTree.new (Rect.mk 0 0 5 5) 1))
        (some (QuadTree.new (Rect.mk 5 0 5 5) 1))
        (some (QuadTree.new (Rect.mk 0 5 5 5) 1))
        (some (QuadTree.new (Rect.mk 5 5 5 5) 1)), false) ∧
    (QuadTree.mk (Rect.mk 0 0 11 11) 1 [Rect.mk 0 0 1 1]
      none none none none).north_west.isSome = false ∧
    (some (QuadTree.new (Rect.mk 0 0 5 5) 1)).isSome = true := by
  exact ⟨rfl, by decide, rfl, rfl, rfl⟩

/-- C1: on any tree state obeying the node-level all-or-nothing child
convention (every reachable state does), `query` returns `none` exactly when
the node's boundary fails the strict intersection test with the region, and
otherwise returns the directly stored entries satisfying `region.contains`
in insertion order, followed by the recursively collected results of the
north-west, north-east, south-west, south-east children in that fixed
order, with absent or pruned children contributing nothing. -/
theorem C1_query_characterization (t : QuadTree) (range : Rect)
    (hinv : t.north_west = none →
      t.north_east = none ∧ t.south_west = none ∧ t.south_east = none) :
    (t.query range = none ↔ t.boundary.intersects range = false) ∧
    (t.boundary.intersects range = true →
      t.query range = some ((t.points.filter fun p => range.contains p)
        ++ QuadTree.oquery t.north_west range
        ++ QuadTree.oquery t.north_east range
        ++ QuadTree.oquery t.south_west range
        ++ QuadTree.oquery t.south_east range)) := by
  obtain ⟨b, c, ps, nw, ne, sw, se⟩ := t
  refine ⟨QuadTree.query_eq_none_iff _ range, ?_⟩
  intro hint
  simp only [QuadTree.boundary_mk] at hint
  cases nw with
  | none =>
    obtain ⟨h1, h2, h3⟩ := hinv rfl
    simp only [QuadTree.north_east_mk] at h1
    simp only [QuadTree.south_west_mk] at h2
    simp only [QuadTree.south_east_mk] at h3
    subst h1; subst h2; subst h3
    rw [QuadTree.query_nw_none b c ps none none none range hint]
    simp [QuadTree.oquery]
  | some tnw =>
    rw [QuadTree.query_internal b c ps tnw ne sw se range hint]
    simp [QuadTree.oquery]

/-- C1 witness: the characterization applied to a concrete internal tree
and region. -/
theorem C1_witness :
    ((QuadTree.mk (Rect.mk 0 0 10 10) 1 [Rect.mk 1 1 1 1]
        (some (QuadTree.new (Rect.mk 0 0 5 5) 1))
        (some (QuadTree.new (Rect.mk 5 0 5 5) 1))
        (some (QuadTree.new (Rect.mk 0 5 5 5) 1))
        (some (QuadTree.new (Rect.mk 5 5 5 5) 1))).query (Rect.mk 0 0 4 4) = none ↔
      (Rect.mk 0 0 10 10).intersects (Rect.mk 0 0 4 4) = false) ∧
    ((Rect.mk 0 0 10 10).intersects (Rect.mk 0 0 4 4) = true →
      (QuadTree.mk (Rect.mk 0 0 10 10) 1 [Rect.mk 1 1 1 1]
        (some (QuadTree.new (Rect.mk 0 0 5 5) 1))
        (some (QuadTree.new (Rect.mk 5 0 5 5) 1))
        (some (QuadTree.new (Rect.mk 0 5 5 5) 1))
        (some (QuadTree.new (Rect.mk 5 5 5 5) 1))).query (Rect.mk 0 0 4 4) =
        some (([Rect.mk 1 1 1 1].filter fun p => (Rect.mk 0 0 4 4).contains p)
          ++ QuadTree.oquery (some (QuadTree.new (Rect.mk 0 0 5 5) 1)) (Rect.mk 0 0 4 4)
          ++ QuadTree.oquery (some (QuadTree.new (Rect.mk 5 0 5 5) 1)) (Rect.mk 0 0 4 4)
          ++ QuadTree.oquery (some (QuadTree.new (Rect.mk 0 5 5 5) 1)) (Rect.mk 0 0 4 4)
          ++ QuadTree.oquery (some (QuadTree.new (Rect.mk 5 5 5 5) 1)) (Rect.mk 0 0 4 4))) :=
  C1_query_characterization
    (QuadTree.mk (Rect.mk 0 0 10 10) 1 [Rect.mk 1 1 1 1]
      (some (QuadTree.new (Rect.mk 0 0 5 5) 1))
      (some (QuadTree.new (Rect.mk 5 0 5 5) 1))
      (some (QuadTree.new (Rect.mk 0 5 5 5) 1))
      (some (QuadTree.new (Rect.mk 5 5 5 5) 1)))
    (Rect.mk 0 0 4 4)
    (by intro h; exact Option.noConfusion h)

/-- C3 counterexample: with root boundary `(0,0,11,11)` and capacity 1,
`(0,0)` is accepted; the entry at `(11,0)` is inside the root boundary
(inclusive test, `11 ≤ 0 + 11`), is not clustered with the first entry, and
its insert terminates — yet it returns `false`: the truncated quadrants
cover only up to `x = 10`, so no child contains it.  This refutes "insert
returns false only when outside the root boundary or in the degenerate
clustering case". -/
theorem C3_counterexample :
    (Rect.mk 0 0 11 11).contains (Rect.mk 11 0 1 1) = true ∧
    QuadTree.insertFuel 2 (QuadTree.new (Rect.mk 0 0 11 11) 1) (Rect.mk 0 0 1 1) =
      some (QuadTree.mk (Rect.mk 0 0 11 11) 1 [Rect.mk 0 0 1 1]
        none none none none, true) ∧
    (QuadTree.insertFuel 2
        (QuadTree.mk (Rect.mk 0 0 11 11) 1 [Rect.mk 0 0 1 1] none none none none)
        (Rect.mk 11 0 1 1)).map Prod.snd = some false := by
  exact ⟨by decide, rfl, rfl⟩

/-- C3 amended: a `true` result implies the origin was inside the boundary;
an origin outside the boundary forces `false` with the tree unchanged; and
on a leaf with spare capacity the result is `true` exactly when the origin
is inside the boundary.  (Unlike the original claim, an in-bounds entry can
also be rejected without coordinate clustering, when truncating subdivision
leaves its origin outside every child quadrant — see the counterexample.) -/
theorem C3_amended (fuel : Nat) (t : QuadTree) (p : Rect) (t2 : QuadTree) (r : Bool)
    (h : QuadTree.insertFuel (fuel+1) t p = some (t2, r)) :
    (r = true → t.boundary.contains p = true) ∧
    (t.boundary.contains p = false → r = false ∧ t2 = t) ∧
    (t.north_west = none → t.points.length < t.capacity →
      (r = true ↔ t.boundary.contains p = true)) := by
  cases hcont : t.boundary.contains p with
  | false =>
    rw [QuadTree.insertFuel] at h
    rw [hcont] at h
    simp only [Bool.not_false, if_true, Option.some.injEq, Prod.mk.injEq] at h
    obtain ⟨h1, h2⟩ := h
    subst h1
    subst h2
    exact ⟨by simp, fun _ => ⟨rfl, rfl⟩, by simp [hcont]⟩
  | true =>
    refine ⟨fun _ => rfl, fun hf => Bool.noConfusion hf, ?_⟩
    intro hnw hlen
    rw [QuadTree.insertFuel] at h
    rw [hcont, hnw] at h
    simp only [Bool.not_true, Bool.false_eq_true, if_false, Option.isNone_none,
      Bool.and_true, decide_eq_true_eq, hlen, if_pos, Option.some.injEq,
      Prod.mk.injEq] at h
    simp [← h.2]

/-- C3 amended witness: the three conclusions at a concrete in-bounds insert
into a fresh tree. -/
theorem C3_amended_witness :
    (true = true →
      (QuadTree.new (Rect.mk 0 0 10 10) 4).boundary.contains (Rect.mk 3 3 1 1) = true) ∧
    ((QuadTree.new (Rect.mk 0 0 10 10) 4).boundary.contains (Rect.mk 3 3 1 1) = false →
      true = false ∧
      QuadTree.mk (Rect.mk 0 0 10 10) 4 [Rect.mk 3 3 1 1] none none none none =
        QuadTree.new (Rect.mk 0 0 10 10) 4) ∧
    ((QuadTree.new (Rect.mk 0 0 10 10) 4).north_west = none →
      (QuadTree.new (Rect.mk 0 0 10 10) 4).points.length <
        (QuadTree.new (Rect.mk 0 0 10 10) 4).capacity →
      (true = true ↔
        (QuadTree.new (Rect.mk 0 0 10 10) 4).boundary.contains (Rect.mk 3 3 1 1) = true)) :=
  C3_amended 0 (QuadTree.new (Rect.mk 0 0 10 10) 4) (Rect.mk 3 3 1 1)
    (QuadTree.mk (Rect.mk 0 0 10 10) 4 [Rect.mk 3 3 1 1] none none none none) true rfl

/-- C2 counterexample: root boundary `(0,0,1,2)` with capacity 1.  The two
distinct entries at `(0,0)` and `(0,1)` both lie inside the root boundary
and both inserts return `true`, the second landing in the north-west
quadrant, whose truncated boundary `(0,0,0,1)` has zero width.  Querying
with the root's own boundary prunes that zero-width subtree (strict
intersection fails), so the result misses the second entry: the returned
set does not equal the inserted set. -/
theorem C2_counterexample :
    (Rect.mk 0 0 1 2).contains (Rect.mk 0 0 1 1) = true ∧
    (Rect.mk 0 0 1 2).contains (Rect.mk 0 1 1 1) = true ∧
    QuadTree.insertAll 2 (QuadTree.new (Rect.mk 0 0 1 2) 1)
        [Rect.mk 0 0 1 1, Rect.mk 0 1 1 1] =
      some (QuadTree.mk (Rect.mk 0 0 1 2) 1 [Rect.mk 0 0 1 1]
        (some (QuadTree.mk (Rect.mk 0 0 0 1) 1 [Rect.mk 0 1 1 1] none none none none))
        (some (QuadTree.new (Rect.mk 0 0 0 1) 1))
        (some (QuadTree.new (Rect.mk 0 1 0 1) 1))
        (some (QuadTree.new (Rect.mk 0 1 0 1) 1)), true) ∧
    (QuadTree.mk (Rect.mk 0 0 1 2) 1 [Rect.mk 0 0 1 1]
      (some (QuadTree.mk (Rect.mk 0 0 0 1) 1 [Rect.mk 0 1 1 1] none none none none))
      (some (QuadTree.new (Rect.mk 0 0 0 1) 1))
      (some (QuadTree.new (Rect.mk 0 1 0 1) 1))
      (some (QuadTree.new (Rect.mk 0 1 0 1) 1))).query (Rect.mk 0 0 1 2) =
      some [Rect.mk 0 0 1 1] ∧
    ¬ Rect.mk 0 1 1 1 ∈ [Rect.mk 0 0 1 1] := by
  exact ⟨by decide, by decide, rfl, rfl, by decide⟩

/-- C2 amended: every entry returned by the full-boundary query was
inserted (no spurious entries); and when at most `capacity` entries are
inserted — so no subdivision can occur — the full-boundary query on a root
with positive width and height returns exactly the inserted sequence.  Full
set equality can fail after subdivision, when truncating halving produces a
zero-extent quadrant whose subtree the query prunes (see the
counterexample). -/
theorem C2_amended (b : Rect) (c fuel : Nat) (es : List Rect)
    (t : QuadTree) (r : Bool)
    (hall : QuadTree.insertAll fuel (QuadTree.new b c) es = some (t, r)) :
    (∀ q, q ∈ (t.query b).getD [] → q ∈ es) ∧
    (es.length ≤ c → (∀ e ∈ es, b.contains e = true) → 0 < b.w → 0 < b.h →
      1 ≤ fuel → t.query b = some es) := by
  constructor
  · intro q hq
    have h1 := QuadTree.query_stored_sub t b q hq
    rcases QuadTree.insertAll_stored_sub es fuel _ t r hall q h1 with h | h
    · simp [QuadTree.new, QuadTree.stored] at h
    · exact h
  · intro hlen hin hw hh hfuel
    simp only [QuadTree.new] at hall
    rw [QuadTree.insertAll_fills_leaf es b c [] fuel hfuel hin (by simpa using hlen)]
      at hall
    rw [Option.some.injEq, Prod.mk.injEq] at hall
    obtain ⟨h1, _⟩ := hall
    subst h1
    rw [QuadTree.query_nw_none b c ([] ++ es) none none none b
      (Rect.intersects_self b hw hh)]
    simp only [List.nil_append, Option.some.injEq]
    exact List.filter_eq_self.mpr (fun a ha => hin a ha)

/-- C2 amended witness: both conclusions at a concrete one-entry insertion. -/
theorem C2_amended_witness :
    (∀ q, q ∈ ((QuadTree.mk (Rect.mk 0 0 10 10) 4 [Rect.mk 1 1 1 1]
        none none none none).query (Rect.mk 0 0 10 10)).getD [] →
      q ∈ [Rect.mk 1 1 1 1]) ∧
    (([Rect.mk 1 1 1 1] : List Rect).length ≤ 4 →
      (∀ e ∈ [Rect.mk 1 1 1 1], (Rect.mk 0 0 10 10).contains e = true) →
      0 < (Rect.mk 0 0 10 10).w → 0 < (Rect.mk 0 0 10 10).h → 1 ≤ 1 →
      (QuadTree.mk (Rect.mk 0 0 10 10) 4 [Rect.mk 1 1 1 1]
        none none none none).query (Rect.mk 0 0 10 10) = some [Rect.mk 1 1 1 1]) :=
  C2_amended (Rect.mk 0 0 10 10) 4 1 [Rect.mk 1 1 1 1]
    (QuadTree.mk (Rect.mk 0 0 10 10) 4 [Rect.mk 1 1 1 1] none none none none) true rfl

/-- C4: inserting up to `capacity` in-bounds entries into a fresh leaf
stores them all directly and leaves all four children absent (no
subdivision); inserting one more in-bounds entry after `capacity` many
causes exactly one subdivision at the root and no further one: the root's
direct entries stay put, all four children exist, and each child is still a
leaf.  (The spec's "spatially distinct enough" proviso is not needed for
the shape statement: the first `capacity` entries stay at the root
regardless, and the one overflow entry lands in — or is rejected by — fresh
leaf quadrants.) -/
theorem C4_capacity_before_split (b : Rect) (c fuel : Nat)
    (es front : List Rect) (last : Rect) :
    (es.length ≤ c → (∀ e ∈ es, b.contains e = true) → 1 ≤ fuel →
      QuadTree.insertAll fuel (QuadTree.new b c) es =
        some (QuadTree.mk b c es none none none none, true)) ∧
    (front.length = c → 1 ≤ c → 2 ≤ fuel → (∀ e ∈ front, b.contains e = true) →
      b.contains last = true →
      ∃ t2 r, QuadTree.insertAll fuel (QuadTree.new b c) (front ++ [last]) =
          some (t2, r) ∧
        t2.points = front ∧
        t2.north_west.map QuadTree.isLeaf = some true ∧
        t2.north_east.map QuadTree.isLeaf = some true ∧
        t2.south_west.map QuadTree.isLeaf = some true ∧
        t2.south_east.map QuadTree.isLeaf = some true) := by
  constructor
  · intro hlen hin hfuel
    simpa using QuadTree.insertAll_fills_leaf es b c [] fuel hfuel hin
      (by simpa using hlen)
  · intro hflen hc hfuel hin hlast
    obtain ⟨n, rfl⟩ : ∃ n, fuel = n + 2 := ⟨fuel - 2, by omega⟩
    rw [QuadTree.insertAll_append]
    have h1 : QuadTree.insertAll (n+2) (QuadTree.new b c) front =
        some (QuadTree.mk b c front none none none none, true) := by
      simpa using QuadTree.insertAll_fills_leaf front b c [] (n+2) (by omega) hin
        (by simp [hflen])
    rw [h1]
    obtain ⟨t2, r, heq, hpts, hb, hcap, f1, f2, f3, f4⟩ :=
      QuadTree.insert_full_leaf n b c front last hc (by omega) hlast
    have h2 : QuadTree.insertAll (n+2)
        (QuadTree.mk b c front none none none none) [last] = some (t2, r) := by
      rw [QuadTree.insertAll, heq]
      dsimp only []
      rw [QuadTree.insertAll]
      simp
    refine ⟨t2, true && r, ?_, hpts, f1, f2, f3, f4⟩
    simp [h2]

/-- C4 witness: capacity 1 and boundary `(0,0,10,10)`: one entry stays at
the root leaf; a second in-bounds entry triggers exactly one subdivision,
all four children present and still leaves. -/
theorem C4_witness :
    QuadTree.insertAll 2 (QuadTree.new (Rect.mk 0 0 10 10) 1) [Rect.mk 1 1 1 1] =
      some (QuadTree.mk (Rect.mk 0 0 10 10) 1 [Rect.mk 1 1 1 1]
        none none none none, true) ∧
    (∃ t2 r, QuadTree.insertAll 2 (QuadTree.new (Rect.mk 0 0 10 10) 1)
        ([Rect.mk 1 1 1 1] ++ [Rect.mk 6 1 1 1]) = some (t2, r) ∧
      t2.points = [Rect.mk 1 1 1 1] ∧
      t2.north_west.map QuadTree.isLeaf = some true ∧
      t2.north_east.map QuadTree.isLeaf = some true ∧
      t2.south_west.map QuadTree.isLeaf = some true ∧
      t2.south_east.map QuadTree.isLeaf = some true) :=
  ⟨(C4_capacity_before_split (Rect.mk 0 0 10 10) 1 2 [Rect.mk 1 1 1 1]
      [Rect.mk 1 1 1 1] (Rect.mk 6 1 1 1)).1 (by decide) (by decide) (by decide),
   (C4_capacity_before_split (Rect.mk 0 0 10 10) 1 2 [Rect.mk 1 1 1 1]
      [Rect.mk 1 1 1 1] (Rect.mk 6 1 1 1)).2 rfl (by decide) (by decide)
      (by decide) (by decide)⟩
